import Mathlib

/-!
Shallow embedding of the XLORM support subsystems (ring buffer / async
metrics, rotating-file log retention, async log pipeline, sharded cache,
metrics snapshot) together with proofs of the behavioural claims about
them.  Go slices backing fixed-size buffers are modelled as total
functions from index to optional element (the zero value of a Go
function slot is nil, modelled as none); Go maps are modelled as
functions to Option or as association lists; machine integers are
modelled as Nat/Int.
-/

namespace XLORM

/-! ## Ring buffer (src/metrics.go) -/

/-- Embeds the Go struct ringBuffer of src/metrics.go: a mutex-protected
circular buffer of deferred metric closures.  The element type is kept
abstract since the claims do not inspect the stored closures. -/
structure ringBuffer (α : Type) where
  buffer : Nat → Option α
  size : Nat
  head : Nat
  tail : Nat
  count : Nat

/-- Embeds newRingBuffer: zero-initialised slice, all cursors at zero. -/
def newRingBuffer (α : Type) (size : Nat) : ringBuffer α :=
  { buffer := fun _ => none, size := size, head := 0, tail := 0, count := 0 }

/-- Embeds ringBuffer.Enqueue: when full it advances head, overwrites the
slot at tail with the new item, advances tail and reports false;
otherwise it writes at tail, advances tail, increments count and reports
true. -/
def ringBuffer.Enqueue (rb : ringBuffer α) (item : α) : ringBuffer α × Bool :=
  if rb.count = rb.size then
    ({ rb with
        head := (rb.head + 1) % rb.size,
        buffer := fun j => if j = rb.tail then some item else rb.buffer j,
        tail := (rb.tail + 1) % rb.size }, false)
  else
    ({ rb with
        buffer := fun j => if j = rb.tail then some item else rb.buffer j,
        tail := (rb.tail + 1) % rb.size,
        count := rb.count + 1 }, true)

/-- Embeds ringBuffer.Dequeue: on an empty buffer reports (nil, false);
otherwise returns the slot at head, advances head and decrements count. -/
def ringBuffer.Dequeue (rb : ringBuffer α) : ringBuffer α × (Option α × Bool) :=
  if rb.count = 0 then (rb, (none, false))
  else
    ({ rb with head := (rb.head + 1) % rb.size, count := rb.count - 1 },
     (rb.buffer rb.head, true))

/-- Structural invariant maintained by the ring buffer operations. -/
def ringBuffer.inv (rb : ringBuffer α) : Prop :=
  0 < rb.size ∧ rb.head < rb.size ∧ rb.count ≤ rb.size ∧
    rb.tail = (rb.head + rb.count) % rb.size

instance (rb : ringBuffer α) : Decidable rb.inv := by
  unfold ringBuffer.inv; infer_instance

/-- Abstraction function: the queue contents, oldest first. -/
def ringBuffer.toList (rb : ringBuffer α) : List (Option α) :=
  (List.range rb.count).map (fun i => rb.buffer ((rb.head + i) % rb.size))

/-- Enqueue every element of a list in order. -/
def ringBuffer.enqueueAll (rb : ringBuffer α) : List α → ringBuffer α
  | [] => rb
  | x :: xs => (rb.Enqueue x).1.enqueueAll xs

/-- Dequeue repeatedly (fuel-bounded) while Dequeue reports true,
collecting the returned items. -/
def ringBuffer.drainAux : Nat → ringBuffer α → List (Option α)
  | 0, _ => []
  | n + 1, rb =>
    let r := rb.Dequeue
    if r.2.2 then r.2.1 :: ringBuffer.drainAux n r.1 else []

/-- Dequeue until the buffer reports empty, collecting the items. -/
def ringBuffer.drain (rb : ringBuffer α) : List (Option α) :=
  ringBuffer.drainAux rb.count rb

theorem ringBuffer.toList_length (rb : ringBuffer α) :
    rb.toList.length = rb.count := by
  simp [ringBuffer.toList]

theorem mod_shift_ne {s h i j : Nat} (hi : i < s) (hj : j < s) (hij : i ≠ j) :
    (h + i) % s ≠ (h + j) % s := by
  intro heq
  have h2 : i % s = j % s := Nat.ModEq.add_left_cancel' h heq
  rw [Nat.mod_eq_of_lt hi, Nat.mod_eq_of_lt hj] at h2
  exact hij h2

theorem ringBuffer.enqueue_eq_of_nonfull (rb : ringBuffer α) (x : α)
    (hnf : rb.count ≠ rb.size) :
    rb.Enqueue x =
      ({ rb with
          buffer := fun j => if j = rb.tail then some x else rb.buffer j,
          tail := (rb.tail + 1) % rb.size,
          count := rb.count + 1 }, true) := by
  simp [ringBuffer.Enqueue, hnf]

theorem ringBuffer.enqueue_eq_of_full (rb : ringBuffer α) (x : α)
    (hf : rb.count = rb.size) :
    rb.Enqueue x =
      ({ rb with
          head := (rb.head + 1) % rb.size,
          buffer := fun j => if j = rb.tail then some x else rb.buffer j,
          tail := (rb.tail + 1) % rb.size }, false) := by
  simp [ringBuffer.Enqueue, hf]

theorem ringBuffer.dequeue_eq_of_nonempty (rb : ringBuffer α)
    (hne : rb.count ≠ 0) :
    rb.Dequeue =
      ({ rb with head := (rb.head + 1) % rb.size, count := rb.count - 1 },
       (rb.buffer rb.head, true)) := by
  simp [ringBuffer.Dequeue, hne]

theorem ringBuffer.dequeue_empty (rb : ringBuffer α) (he : rb.count = 0) :
    rb.Dequeue = (rb, (none, false)) := by
  simp [ringBuffer.Dequeue, he]

theorem ringBuffer.enqueue_nonfull (rb : ringBuffer α) (x : α)
    (hinv : rb.inv) (hnf : rb.count ≠ rb.size) :
    (rb.Enqueue x).2 = true ∧
    (rb.Enqueue x).1.toList = rb.toList ++ [some x] ∧
    (rb.Enqueue x).1.inv ∧ (rb.Enqueue x).1.size = rb.size := by
  obtain ⟨buf, s, hd, tl, c⟩ := rb
  obtain ⟨hs, hh, hc, ht⟩ := hinv
  simp only at hnf hc ht hh hs
  have hclt : c < s := lt_of_le_of_ne hc hnf
  rw [ringBuffer.enqueue_eq_of_nonfull _ x hnf]
  refine ⟨rfl, ?_, ?_, rfl⟩
  · show (List.range (c + 1)).map
        (fun i => if (hd + i) % s = tl then some x
                  else buf ((hd + i) % s))
      = ringBuffer.toList ⟨buf, s, hd, tl, c⟩ ++ [some x]
    rw [List.range_succ, List.map_append]
    congr 1
    · apply List.map_congr_left
      intro i hi
      rw [List.mem_range] at hi
      rw [if_neg]
      rw [ht]
      exact mod_shift_ne (lt_trans hi hclt) hclt (Nat.ne_of_lt hi)
    · simp [ht]
  · show 0 < s ∧ hd < s ∧ c + 1 ≤ s ∧ (tl + 1) % s = (hd + (c + 1)) % s
    refine ⟨hs, hh, by omega, ?_⟩
    rw [ht, Nat.mod_add_mod, Nat.add_assoc]

theorem ringBuffer.enqueue_full (rb : ringBuffer α) (x : α)
    (hinv : rb.inv) (hf : rb.count = rb.size) :
    (rb.Enqueue x).2 = false ∧
    (rb.Enqueue x).1.toList = rb.toList.drop 1 ++ [some x] ∧
    (rb.Enqueue x).1.inv ∧ (rb.Enqueue x).1.size = rb.size := by
  obtain ⟨buf, s, hd, tl, c⟩ := rb
  obtain ⟨hs, hh, hc, ht⟩ := hinv
  simp only at hf hc ht hh hs
  have hf2 : s = c := hf.symm
  subst hf2
  have htail : tl = hd := by
    rw [ht, Nat.add_mod_right, Nat.mod_eq_of_lt hh]
  have htail2 : hd = tl := htail.symm
  subst htail2
  obtain ⟨m, hm⟩ : ∃ m, s = m + 1 := ⟨s - 1, by omega⟩
  rw [ringBuffer.enqueue_eq_of_full _ x rfl]
  refine ⟨rfl, ?_, ?_, rfl⟩
  · show (List.range s).map
        (fun i => if ((hd + 1) % s + i) % s = hd then some x
                  else buf (((hd + 1) % s + i) % s))
      = (ringBuffer.toList ⟨buf, s, hd, hd, s⟩).drop 1 ++ [some x]
    subst hm
    have hdrop : (ringBuffer.toList ⟨buf, m + 1, hd, hd, m + 1⟩).drop 1 =
        (List.range m).map (fun i => buf ((hd + (i + 1)) % (m + 1))) := by
      rw [ringBuffer.toList, List.range_succ_eq_map]
      simp [List.map_map, Function.comp_def]
    rw [hdrop, List.range_succ, List.map_append]
    congr 1
    · apply List.map_congr_left
      intro i hi
      rw [List.mem_range] at hi
      have h1i : hd + 1 + i = hd + (i + 1) := by omega
      have hne : (hd + (i + 1)) % (m + 1) ≠ hd := by
        have h0 : hd = (hd + 0) % (m + 1) := by
          rw [Nat.add_zero, Nat.mod_eq_of_lt hh]
        conv_rhs => rw [h0]
        exact mod_shift_ne (by omega) (by omega) (by omega)
      rw [Nat.mod_add_mod, h1i, if_neg hne]
    · simp only [List.map_cons, List.map_nil]
      have h1m : hd + 1 + m = hd + (m + 1) := by omega
      rw [Nat.mod_add_mod, h1m, Nat.add_mod_right, Nat.mod_eq_of_lt hh,
        if_pos rfl]
  · show 0 < s ∧ (hd + 1) % s < s ∧ s ≤ s ∧
      (hd + 1) % s = ((hd + 1) % s + s) % s
    refine ⟨hs, Nat.mod_lt _ hs, le_refl s, ?_⟩
    rw [Nat.mod_add_mod, Nat.add_mod_right]

theorem ringBuffer.dequeue_nonempty (rb : ringBuffer α)
    (hinv : rb.inv) (hne : rb.count ≠ 0) :
    rb.Dequeue.2 = (rb.buffer rb.head, true) ∧
    rb.toList = rb.buffer rb.head :: rb.Dequeue.1.toList ∧
    rb.Dequeue.1.inv ∧ rb.Dequeue.1.size = rb.size ∧
    rb.Dequeue.1.count = rb.count - 1 := by
  obtain ⟨buf, s, hd, tl, c⟩ := rb
  obtain ⟨hs, hh, hc, ht⟩ := hinv
  simp only at hne hc ht hh hs
  obtain ⟨c0, hceq⟩ : ∃ c0, c = c0 + 1 := ⟨c - 1, by omega⟩
  subst hceq
  rw [ringBuffer.dequeue_eq_of_nonempty _ hne]
  refine ⟨rfl, ?_, ?_, rfl, rfl⟩
  · show ringBuffer.toList ⟨buf, s, hd, tl, c0 + 1⟩ = buf hd ::
      (List.range (c0 + 1 - 1)).map
        (fun i => buf (((hd + 1) % s + i) % s))
    rw [ringBuffer.toList, Nat.add_sub_cancel, List.range_succ_eq_map,
      List.map_cons, List.map_map]
    congr 1
    · show buf ((hd + 0) % s) = buf hd
      rw [Nat.add_zero, Nat.mod_eq_of_lt hh]
    · apply List.map_congr_left
      intro i _
      simp only [Function.comp_apply, Nat.mod_add_mod]
      congr 2
      omega
  · show 0 < s ∧ (hd + 1) % s < s ∧ c0 + 1 - 1 ≤ s ∧
      tl = ((hd + 1) % s + (c0 + 1 - 1)) % s
    refine ⟨hs, Nat.mod_lt _ hs, by omega, ?_⟩
    rw [ht, Nat.mod_add_mod]
    congr 1
    omega

/-- One step of the abstract bounded-queue semantics realised by Enqueue:
at capacity the oldest element is dropped before the new one is appended. -/
def qstep (C : Nat) (l : List (Option α)) (x : α) : List (Option α) :=
  if l.length = C then l.drop 1 ++ [some x] else l ++ [some x]

/-- Folding the abstract step over a list of pushed items. -/
def qrun (C : Nat) (l : List (Option α)) (items : List α) : List (Option α) :=
  items.foldl (qstep C) l

theorem ringBuffer.enqueueAll_toList (items : List α) :
    ∀ rb : ringBuffer α, rb.inv →
      (rb.enqueueAll items).toList = qrun rb.size rb.toList items ∧
      (rb.enqueueAll items).inv ∧ (rb.enqueueAll items).size = rb.size := by
  induction items with
  | nil => intro rb hinv; exact ⟨rfl, hinv, rfl⟩
  | cons x xs ih =>
    intro rb hinv
    have hlen : rb.toList.length = rb.count := rb.toList_length
    simp only [ringBuffer.enqueueAll]
    by_cases hf : rb.count = rb.size
    · obtain ⟨_, hlist, hinv2, hsize⟩ := rb.enqueue_full x hinv hf
      obtain ⟨ih1, ih2, ih3⟩ := ih (rb.Enqueue x).1 hinv2
      refine ⟨?_, ih2, by rw [ih3, hsize]⟩
      rw [ih1, hsize, hlist]
      simp only [qrun, List.foldl_cons]
      congr 1
      rw [qstep, if_pos (by rw [hlen, hf])]
    · obtain ⟨_, hlist, hinv2, hsize⟩ := rb.enqueue_nonfull x hinv hf
      obtain ⟨ih1, ih2, ih3⟩ := ih (rb.Enqueue x).1 hinv2
      refine ⟨?_, ih2, by rw [ih3, hsize]⟩
      rw [ih1, hsize, hlist]
      simp only [qrun, List.foldl_cons]
      congr 1
      rw [qstep, if_neg (by rw [hlen]; exact hf)]

theorem qrun_eq_drop (C : Nat) (hC : 0 < C) (items : List α) :
    ∀ l : List (Option α), l.length ≤ C →
      qrun C l items =
        (l ++ items.map some).drop (l.length + items.length - C) := by
  induction items with
  | nil =>
    intro l hl
    simp [qrun, Nat.sub_eq_zero_of_le hl]
  | cons x xs ih =>
    intro l hl
    by_cases hlen : l.length = C
    · have hstep : qstep C l x = l.drop 1 ++ [some x] := by
        rw [qstep, if_pos hlen]
      have hlen2 : (l.drop 1 ++ [some x]).length = C := by
        simp only [List.length_append, List.length_drop, List.length_cons,
          List.length_nil]
        omega
      calc qrun C l (x :: xs) = qrun C (l.drop 1 ++ [some x]) xs := by
            simp only [qrun, List.foldl_cons, hstep]
        _ = ((l.drop 1 ++ [some x]) ++ xs.map some).drop
              ((l.drop 1 ++ [some x]).length + xs.length - C) :=
            ih (l.drop 1 ++ [some x]) (le_of_eq hlen2)
        _ = (l ++ (x :: xs).map some).drop (l.length + (x :: xs).length - C) := by
            have h1 : C + xs.length - C = xs.length := by omega
            have h2 : l.length + (x :: xs).length - C = xs.length + 1 := by
              simp only [List.length_cons]
              omega
            rw [hlen2, h1, h2, List.append_assoc, List.singleton_append,
              List.map_cons]
            rw [← List.drop_append_of_le_length (by omega : 1 ≤ l.length)]
            rw [List.drop_drop, Nat.add_comm]
    · have hstep : qstep C l x = l ++ [some x] := by
        rw [qstep, if_neg hlen]
      have hlen2 : (l ++ [some x]).length = l.length + 1 := by simp
      calc qrun C l (x :: xs) = qrun C (l ++ [some x]) xs := by
            simp only [qrun, List.foldl_cons, hstep]
        _ = ((l ++ [some x]) ++ xs.map some).drop
              ((l ++ [some x]).length + xs.length - C) :=
            ih (l ++ [some x]) (by omega)
        _ = (l ++ (x :: xs).map some).drop (l.length + (x :: xs).length - C) := by
            rw [hlen2, List.append_assoc, List.singleton_append, List.map_cons]
            congr 1
            simp only [List.length_cons]
            omega

theorem ringBuffer.drain_eq_toList :
    ∀ (n : Nat) (rb : ringBuffer α), rb.inv → rb.count = n →
      ringBuffer.drainAux n rb = rb.toList := by
  intro n
  induction n with
  | zero =>
    intro rb _ hc
    rw [ringBuffer.drainAux, ringBuffer.toList, hc]
    simp
  | succ n ih =>
    intro rb hinv hc
    have hne : rb.count ≠ 0 := by omega
    obtain ⟨hdq, hlist, hinv2, _, hcount⟩ := rb.dequeue_nonempty hinv hne
    rw [ringBuffer.drainAux]
    simp only [hdq, if_pos]
    rw [ih rb.Dequeue.1 hinv2 (by omega), hlist]

theorem newRingBuffer_inv (α : Type) (C : Nat) (hC : 0 < C) :
    (newRingBuffer α C).inv := by
  refine ⟨hC, hC, Nat.zero_le C, ?_⟩
  simp [newRingBuffer]

/-- C2: enqueueing C + k items (k ≥ 1) into a fresh ring buffer of
capacity C > 0 and then dequeuing until the buffer reports empty yields
exactly the last C items in their original relative order; the oldest k
items are lost. -/
theorem ringBuffer_keeps_last_C (α : Type) (C k : Nat) (items : List α)
    (hC : 0 < C) (hlen : items.length = C + k) (hk : 1 ≤ k) :
    ((newRingBuffer α C).enqueueAll items).drain = (items.drop k).map some ∧
    (items.drop k).length = C := by
  have hinv0 := newRingBuffer_inv α C hC
  obtain ⟨h1, h2, h3⟩ := ringBuffer.enqueueAll_toList items (newRingBuffer α C) hinv0
  constructor
  · rw [ringBuffer.drain, ringBuffer.drain_eq_toList _ _ h2 rfl, h1]
    have htl : (newRingBuffer α C).toList = [] := by
      simp [ringBuffer.toList, newRingBuffer]
    rw [htl]
    have : (newRingBuffer α C).size = C := rfl
    rw [this]
    rw [qrun_eq_drop C hC items [] (by simp)]
    simp only [List.nil_append, List.length_nil, Nat.zero_add]
    rw [hlen]
    have hdk : C + k - C = k := by omega
    rw [hdk, List.map_drop]
  · rw [List.length_drop, hlen]
    omega

theorem ringBuffer_keeps_last_C_witness :
    0 < 2 ∧ ([10, 20, 30] : List Nat).length = 2 + 1 ∧ 1 ≤ 1 ∧
    ((newRingBuffer Nat 2).enqueueAll [10, 20, 30]).drain
      = [some 20, some 30] := by
  refine ⟨by decide, by decide, by decide, ?_⟩
  have h := (ringBuffer_keeps_last_C Nat 2 1 [10, 20, 30]
    (by decide) (by decide) (by decide)).1
  simpa using h

/-- Embeds the part of the Go struct asyncDBMetrics of src/metrics.go
that the drop-accounting claim is about: the ring buffer of pending
metric closures and the droppedMetrics counter. -/
structure asyncDBMetrics (α : Type) where
  buffer : ringBuffer α
  droppedMetrics : Nat

/-- Embeds asyncDBMetrics.recordMetric: enqueue the closure and count a
drop when Enqueue reports failure. -/
def asyncDBMetrics.recordMetric (am : asyncDBMetrics α) (metricFunc : α) :
    asyncDBMetrics α :=
  let r := am.buffer.Enqueue metricFunc
  if r.2 then { am with buffer := r.1 }
  else { buffer := r.1, droppedMetrics := am.droppedMetrics + 1 }

/-- C1 counterexample: with a full capacity-1 buffer holding closure 10,
recordMetric of closure 20 makes Enqueue report failure and increments
droppedMetrics, yet the new closure 20 is stored and is exactly what the
next Dequeue returns and hands to the aggregator — it is not discarded
(the evicted closure 10 is). -/
theorem recordMetric_drop_counterexample :
    ((asyncDBMetrics.mk ((newRingBuffer Nat 1).enqueueAll [10]) 0).buffer.Enqueue
        20).2 = false ∧
    ((asyncDBMetrics.mk ((newRingBuffer Nat 1).enqueueAll [10]) 0).recordMetric
        20).droppedMetrics = 1 ∧
    ((asyncDBMetrics.mk ((newRingBuffer Nat 1).enqueueAll [10]) 0).recordMetric
        20).buffer.Dequeue.2 = (some 20, true) := by
  decide

/-- C1 (amended): when recordMetric is called with the ring buffer full,
Enqueue reports failure and droppedMetrics is incremented by one, but the
new closure is stored in the buffer (it becomes the newest pending
element); what is discarded is the oldest previously pending closure. -/
theorem recordMetric_full_behaviour (α : Type) (am : asyncDBMetrics α) (f : α)
    (hinv : am.buffer.inv) (hfull : am.buffer.count = am.buffer.size) :
    (am.buffer.Enqueue f).2 = false ∧
    (am.recordMetric f).droppedMetrics = am.droppedMetrics + 1 ∧
    (am.recordMetric f).buffer.toList
      = am.buffer.toList.drop 1 ++ [some f] := by
  obtain ⟨hret, hlist, _, _⟩ := am.buffer.enqueue_full f hinv hfull
  refine ⟨hret, ?_, ?_⟩
  · rw [asyncDBMetrics.recordMetric]
    simp [hret]
  · rw [asyncDBMetrics.recordMetric]
    simp [hret, hlist]

theorem recordMetric_full_behaviour_witness :
    (asyncDBMetrics.mk ((newRingBuffer Nat 1).enqueueAll [10]) 5).buffer.inv ∧
    (asyncDBMetrics.mk ((newRingBuffer Nat 1).enqueueAll [10]) 5).buffer.count
      = (asyncDBMetrics.mk ((newRingBuffer Nat 1).enqueueAll [10]) 5).buffer.size ∧
    ((asyncDBMetrics.mk ((newRingBuffer Nat 1).enqueueAll [10]) 5).buffer.Enqueue
        20).2 = false ∧
    ((asyncDBMetrics.mk ((newRingBuffer Nat 1).enqueueAll [10]) 5).recordMetric
        20).droppedMetrics = 5 + 1 ∧
    ((asyncDBMetrics.mk ((newRingBuffer Nat 1).enqueueAll [10]) 5).recordMetric
        20).buffer.toList
      = ((asyncDBMetrics.mk ((newRingBuffer Nat 1).enqueueAll [10]) 5).buffer.toList).drop 1
        ++ [some 20] := by
  refine ⟨by decide, by decide, ?_⟩
  exact recordMetric_full_behaviour Nat
    (asyncDBMetrics.mk ((newRingBuffer Nat 1).enqueueAll [10]) 5) 20
    (by decide) (by decide)

/-! ## Rotating file handler retention sweep (asyncLogger source file) -/

/-- Go strings are byte/character sequences; file names here are modelled
as lists of characters. -/
abbrev GoStr := List Char

/-- The literal extension the sweep works with. -/
def dotLog : GoStr := ['.', 'l', 'o', 'g']

/-- Embeds strings.HasPrefix. -/
def startsWith (s p : GoStr) : Bool := p.isPrefixOf s

/-- Embeds strings.HasSuffix. -/
def endsWith (s p : GoStr) : Bool := p.isSuffixOf s

/-- Embeds strings.TrimSuffix. -/
def goTrimSuffix (s p : GoStr) : GoStr :=
  if endsWith s p then s.take (s.length - p.length) else s

/-- Embeds strings.Split with the single-character separator used by
cleanupOldLogs (an underscore). -/
def splitUnderscore : GoStr → List GoStr
  | [] => [[]]
  | c :: cs =>
    let ps := splitUnderscore cs
    if c = '_' then [] :: ps
    else
      match ps with
      | [] => [[c]]
      | p :: rest => (c :: p) :: rest

def isDigitCh (c : Char) : Bool := decide ('0' ≤ c) && decide (c ≤ '9')

def digitVal (c : Char) : Nat := c.toNat - '0'.toNat

def isLeapYear (y : Nat) : Bool :=
  (decide (y % 4 = 0) && decide (y % 100 ≠ 0)) || decide (y % 400 = 0)

def daysInMonth (y m : Nat) : Nat :=
  if m = 2 then (if isLeapYear y then 29 else 28)
  else if m = 4 ∨ m = 6 ∨ m = 9 ∨ m = 11 then 30
  else 31

/-- Embeds the success condition of Go time.Parse with layout 2006-01-02:
exactly four year digits, a dash, two month digits, a dash, two day
digits, with the month and the day in range for the parsed year. -/
def parseDateOk : GoStr → Bool
  | [y1, y2, y3, y4, s1, m1, m2, s2, d1, d2] =>
    isDigitCh y1 && isDigitCh y2 && isDigitCh y3 && isDigitCh y4 &&
    decide (s1 = '-') && isDigitCh m1 && isDigitCh m2 &&
    decide (s2 = '-') && isDigitCh d1 && isDigitCh d2 &&
    (let y := ((digitVal y1 * 10 + digitVal y2) * 10 + digitVal y3) * 10
        + digitVal y4
     let m := digitVal m1 * 10 + digitVal m2
     let d := digitVal d1 * 10 + digitVal d2
     decide (1 ≤ m) && decide (m ≤ 12) && decide (1 ≤ d) &&
     decide (d ≤ daysInMonth y m))
  | _ => false

/-- A directory entry as seen by the sweep: name, directory flag and
modification time (an instant on an abstract integer time line). -/
structure dirEntry where
  name : GoStr
  isDir : Bool
  modTime : Int

/-- Embeds the per-file decision of rotatingFileHandler.cleanupOldLogs:
regular file, name begins with baseFileName and ends in the log
extension, the second underscore-separated segment is a valid date
followed by the extension, and the modification time is before the
cutoff (now minus maxAge). -/
def cleanupDeletes (baseFileName : GoStr) (cutoffTime : Int) (f : dirEntry) :
    Bool :=
  if !f.isDir && startsWith f.name baseFileName && endsWith f.name dotLog then
    let parts := splitUnderscore f.name
    if parts.length < 2 then false
    else
      let p1 := parts.getD 1 []
      if !endsWith p1 dotLog then false
      else
        let datePart := goTrimSuffix p1 dotLog
        if !parseDateOk datePart then false
        else decide (f.modTime < cutoffTime)
  else false

/-- Embeds the whole sweep: the files surviving cleanupOldLogs. -/
def cleanupOldLogs (baseFileName : GoStr) (cutoffTime : Int)
    (files : List dirEntry) : List dirEntry :=
  files.filter (fun f => !cleanupDeletes baseFileName cutoffTime f)

theorem endsWith_iff (s p : GoStr) : endsWith s p = true ↔ ∃ t, t ++ p = s := by
  rw [endsWith, List.isSuffixOf_iff_suffix]
  exact Iff.rfl

theorem goTrimSuffix_append (d p : GoStr) : goTrimSuffix (d ++ p) p = d := by
  rw [goTrimSuffix, if_pos ((endsWith_iff _ _).2 ⟨d, rfl⟩)]
  have hl : (d ++ p).length - p.length = d.length := by simp
  rw [hl, List.take_left]

theorem segment_date_iff (p1 : GoStr) :
    (endsWith p1 dotLog = true ∧ parseDateOk (goTrimSuffix p1 dotLog) = true) ↔
    ∃ d, parseDateOk d = true ∧ p1 = d ++ dotLog := by
  constructor
  · rintro ⟨he, hp⟩
    obtain ⟨t, ht⟩ := (endsWith_iff p1 dotLog).1 he
    refine ⟨t, ?_, ht.symm⟩
    rw [← ht, goTrimSuffix_append] at hp
    exact hp
  · rintro ⟨d, hp, rfl⟩
    exact ⟨(endsWith_iff _ _).2 ⟨d, rfl⟩, by rwa [goTrimSuffix_append]⟩

/-- C3 counterexample: with base name app, the file appX_2024-03-10.log is
an old regular file that does NOT have the form baseName underscore date
extension (the text after app before the underscore is X, not nothing),
yet the sweep deletes it: the code only checks the HasPrefix of the whole
name and the underscore-split second segment. -/
theorem cleanup_pattern_counterexample :
    cleanupDeletes ['a', 'p', 'p'] 1
      ⟨['a', 'p', 'p', 'X', '_', '2', '0', '2', '4', '-', '0', '3', '-',
        '1', '0', '.', 'l', 'o', 'g'], false, 0⟩ = true ∧
    ¬ ∃ d : GoStr, parseDateOk d = true ∧
      (['a', 'p', 'p', 'X', '_', '2', '0', '2', '4', '-', '0', '3', '-',
        '1', '0', '.', 'l', 'o', 'g'] : GoStr)
        = ['a', 'p', 'p'] ++ '_' :: (d ++ dotLog) := by
  constructor
  · decide
  · rintro ⟨d, _, hname⟩
    simp only [List.cons_append, List.nil_append] at hname
    injection hname with h1 hname
    injection hname with h2 hname
    injection hname with h3 hname
    injection hname with h4 hname
    exact absurd h4 (by decide)

/-- C3 (amended): the sweep deletes a file exactly when it is a regular
file whose name starts with baseName and ends in the log extension, whose
second underscore-separated segment is a valid date followed by the log
extension, and whose modification time precedes now minus maxAge.  This
predicate coincides with matching baseName underscore date extension only
for base names without underscores and names with a single underscore;
names with a longer prefix before the first underscore are also deleted,
and names whose base contains an underscore are never deleted. -/
theorem cleanupDeletes_amended (base : GoStr) (cutoff : Int) (f : dirEntry) :
    cleanupDeletes base cutoff f = true ↔
      f.isDir = false ∧ startsWith f.name base = true ∧
      endsWith f.name dotLog = true ∧
      (∃ d, parseDateOk d = true ∧
        (splitUnderscore f.name).getD 1 [] = d ++ dotLog) ∧
      f.modTime < cutoff := by
  simp only [cleanupDeletes]
  by_cases houter : (!f.isDir && startsWith f.name base
      && endsWith f.name dotLog) = true
  · rw [if_pos houter]
    simp only [Bool.and_eq_true, Bool.not_eq_true'] at houter
    obtain ⟨⟨hdir, hpre⟩, hsuf⟩ := houter
    by_cases hlen : (splitUnderscore f.name).length < 2
    · rw [if_pos hlen]
      have hget : (splitUnderscore f.name).getD 1 [] = [] := by
        rw [List.getD_eq_getElem?_getD, List.getElem?_eq_none (by omega)]
        rfl
      constructor
      · intro h
        exact absurd h (by decide)
      · rintro ⟨_, _, _, ⟨d, _, habs⟩, _⟩
        rw [hget] at habs
        exact absurd habs.symm (by simp [dotLog])
    · rw [if_neg hlen]
      cases hsuf2 : endsWith ((splitUnderscore f.name).getD 1 []) dotLog with
      | false =>
        rw [if_pos (show (!false) = true by decide)]
        constructor
        · intro h
          exact absurd h (by decide)
        · rintro ⟨_, _, _, hex, _⟩
          have hseg := (segment_date_iff ((splitUnderscore f.name).getD 1 [])).2 hex
          rw [hsuf2] at hseg
          exact absurd hseg.1 (by decide)
      | true =>
        rw [if_neg (show ¬(!true) = true by decide)]
        cases hdate : parseDateOk
            (goTrimSuffix ((splitUnderscore f.name).getD 1 []) dotLog) with
        | false =>
          rw [if_pos (show (!false) = true by decide)]
          constructor
          · intro h
            exact absurd h (by decide)
          · rintro ⟨_, _, _, hex, _⟩
            have hseg := (segment_date_iff ((splitUnderscore f.name).getD 1 [])).2 hex
            rw [hdate] at hseg
            exact absurd hseg.2 (by decide)
        | true =>
          rw [if_neg (show ¬(!true) = true by decide), decide_eq_true_eq]
          constructor
          · intro hm
            exact ⟨hdir, hpre, hsuf,
              (segment_date_iff _).1 ⟨hsuf2, hdate⟩, hm⟩
          · intro h
            exact h.2.2.2.2
  · rw [if_neg houter]
    simp only [Bool.and_eq_true, Bool.not_eq_true'] at houter
    constructor
    · intro h
      exact absurd h (by decide)
    · rintro ⟨h1, h2, h3, _, _⟩
      exact absurd ⟨⟨h1, h2⟩, h3⟩ houter

/-! ## Async log pipeline (asyncLogger source file)

Sequential model.  The channel and the cancellable context are shared
between a logger and every handler derived from it via WithAttrs or
WithGroup, so they live in loggerShared; the atomic counters, the closed
flag and the error channel belong to the individual Go struct value, so
they live in loggerOwn (a derived handler gets fresh zero values for
them).  The base slog.Handler is kept as an abstract type. -/

/-- State shared through the channel and context references. -/
structure loggerShared (ρ : Type) where
  chContents : List ρ
  chCap : Nat
  chClosed : Bool
  ctxCancelled : Bool

/-- The only error value Handle itself ever reports on the error
side-channel (the Go "log channel full, record dropped" error). -/
inductive logErr where
  | chanFull
deriving DecidableEq

/-- Per-struct state of an asyncLogger value.  errCh is none for a nil
error channel (derived handlers do not copy it). -/
structure loggerOwn (η : Type) where
  baseHandler : η
  dropped : Nat
  total : Nat
  errCh : Option (List logErr)
  closed : Bool

/-- Capacity of the error side-channel created by NewAsyncLogger. -/
def errChCap : Nat := 100

/-- Embeds NewAsyncLogger: empty buffered channel of the given size, live
context, fresh counters and an empty error channel of capacity 100. -/
def newAsyncLogger (ρ : Type) (base : η) (bufferSize : Nat) :
    loggerShared ρ × loggerOwn η :=
  (⟨[], bufferSize, false, false⟩, ⟨base, 0, 0, some [], false⟩)

/-- Outcome of asyncLogger.Handle. -/
inductive handleResult where
  | ok
  | errClosed
  | errCtx
  | panicked
deriving DecidableEq

/-- Embeds asyncLogger.Handle.  The select has three cases: send into the
channel, context done, and default.  A send case is ready when the
channel has free space or is closed (a send on a closed channel panics);
the context case is ready when the context is cancelled; when both are
ready Go picks randomly, modelled by the oracle sel (true picks the
send case).  The default branch counts the record as dropped and
best-effort pushes a channel-full report onto the error side-channel
(silently skipped when that channel is full or nil). -/
def loggerHandle (sel : Bool) (s : loggerShared ρ) (o : loggerOwn η) (r : ρ) :
    handleResult × loggerShared ρ × loggerOwn η :=
  if o.closed then (handleResult.errClosed, s, o)
  else
    let sendReady := s.chClosed || decide (s.chContents.length < s.chCap)
    let ctxReady := s.ctxCancelled
    if sendReady && (!ctxReady || sel) then
      if s.chClosed then (handleResult.panicked, s, o)
      else
        (handleResult.ok, { s with chContents := s.chContents ++ [r] },
         { o with total := o.total + 1 })
    else if ctxReady then (handleResult.errCtx, s, o)
    else
      (handleResult.ok, s,
       { o with
          dropped := o.dropped + 1,
          errCh := match o.errCh with
            | some es =>
              if es.length < errChCap then some (es ++ [logErr.chanFull])
              else some es
            | none => none })

/-- Embeds asyncLogger.collectErrors in the sequential setting: read all
buffered errors and return their join, nil when there are none; a nil
error channel yields nil via the default branch. -/
def collectErrors (o : loggerOwn η) : Option (List logErr) × loggerOwn η :=
  match o.errCh with
  | some [] => (none, { o with errCh := some [] })
  | some es => (some es, { o with errCh := some [] })
  | none => (none, o)

/-- Embeds asyncLogger.Close in the sequential setting: a second call
sees the closed flag and returns nil immediately; the first call sets the
flag, closes the channel, cancels the context, drains the remaining
records to the base handler (modelled as emptying the channel) and
returns the joined side-channel errors. -/
def loggerClose (s : loggerShared ρ) (o : loggerOwn η) :
    Option (List logErr) × loggerShared ρ × loggerOwn η :=
  if o.closed then (none, s, o)
  else
    let o1 := { o with closed := true }
    let s1 := { s with chClosed := true, ctxCancelled := true,
                       chContents := [] }
    let r := collectErrors o1
    (r.1, s1, r.2)

/-- Embeds asyncLogger.GetDroppedLogsCount. -/
def GetDroppedLogsCount (o : loggerOwn η) : Nat := o.dropped

/-- Embeds asyncLogger.GetTotalLogsCount. -/
def GetTotalLogsCount (o : loggerOwn η) : Nat := o.total

/-- Embeds asyncLogger.WithAttrs: the Go struct literal copies only
baseHandler (transformed), ch, wg, ctx and cancel; dropped, total, errCh
and closed are zero values.  newBase stands for
baseHandler.WithAttrs(attrs). -/
def loggerWithAttrs (o : loggerOwn η) (newBase : η) : loggerOwn η :=
  { baseHandler := newBase, dropped := 0, total := 0, errCh := none,
    closed := false }

/-- Embeds asyncLogger.WithGroup, identical shape to WithAttrs; newBase
stands for baseHandler.WithGroup(name). -/
def loggerWithGroup (o : loggerOwn η) (newBase : η) : loggerOwn η :=
  { baseHandler := newBase, dropped := 0, total := 0, errCh := none,
    closed := false }

/-- C4: Handle returns the closed error exactly when the logger is
already closed; otherwise it returns success: with channel space the
record is appended and the total counter incremented; with a full channel
the dropped counter is incremented and a channel-full report is pushed
onto the error side-channel when it has space and silently discarded
otherwise.  The hypotheses state the sequential-use invariant that the
shared context is only cancelled (and the channel only closed) by Close,
which also sets the closed flag. -/
theorem loggerHandle_spec (ρ η : Type) (sel : Bool) (s : loggerShared ρ)
    (o : loggerOwn η) (r : ρ)
    (hctx : s.ctxCancelled = true → o.closed = true)
    (hch : s.chClosed = true → o.closed = true) :
    ((loggerHandle sel s o r).1 = handleResult.errClosed ↔ o.closed = true) ∧
    (o.closed = true → loggerHandle sel s o r = (handleResult.errClosed, s, o)) ∧
    (o.closed = false → s.chContents.length < s.chCap →
      loggerHandle sel s o r =
        (handleResult.ok, { s with chContents := s.chContents ++ [r] },
         { o with total := o.total + 1 })) ∧
    (o.closed = false → ¬ s.chContents.length < s.chCap →
      (loggerHandle sel s o r).1 = handleResult.ok ∧
      (loggerHandle sel s o r).2.1 = s ∧
      (loggerHandle sel s o r).2.2.dropped = o.dropped + 1 ∧
      (loggerHandle sel s o r).2.2.total = o.total ∧
      (∀ es, o.errCh = some es → es.length < errChCap →
        (loggerHandle sel s o r).2.2.errCh = some (es ++ [logErr.chanFull])) ∧
      (∀ es, o.errCh = some es → ¬ es.length < errChCap →
        (loggerHandle sel s o r).2.2.errCh = some es)) := by
  cases hcl : o.closed with
  | true =>
    refine ⟨?_, ?_, ?_, ?_⟩
    · rw [loggerHandle, if_pos hcl]
      simp
    · intro _
      rw [loggerHandle, if_pos hcl]
    · intro habs
      exact absurd habs (by decide)
    · intro habs
      exact absurd habs (by decide)
  | false =>
    have hcc : s.ctxCancelled = false := by
      cases hv : s.ctxCancelled with
      | false => rfl
      | true => rw [hctx hv] at hcl; exact absurd hcl (by decide)
    have hccl : s.chClosed = false := by
      cases hv : s.chClosed with
      | false => rfl
      | true => rw [hch hv] at hcl; exact absurd hcl (by decide)
    refine ⟨?_, ?_, ?_, ?_⟩
    · rw [loggerHandle, if_neg (by rw [hcl]; decide)]
      simp only [hcc, hccl, Bool.false_or, Bool.not_false, Bool.true_or,
        Bool.and_true, Bool.true_and]
      by_cases hsp : s.chContents.length < s.chCap
      · rw [if_pos (by simp [hsp]), if_neg (by decide)]
        simp
      · rw [if_neg (by simp [hsp]), if_neg (by decide)]
        simp
    · intro habs
      exact absurd habs (by decide)
    · intro _ hsp
      rw [loggerHandle, if_neg (by rw [hcl]; decide)]
      simp only [hcc, hccl, Bool.false_or, Bool.not_false, Bool.true_or,
        Bool.and_true, Bool.true_and]
      rw [if_pos (by simp [hsp]), if_neg (by decide), hcl]
    · intro _ hsp
      rw [loggerHandle, if_neg (by rw [hcl]; decide)]
      simp only [hcc, hccl, Bool.false_or, Bool.not_false, Bool.true_or,
        Bool.and_true, Bool.true_and]
      rw [if_neg (by simp [hsp]), if_neg (by decide)]
      refine ⟨rfl, rfl, rfl, rfl, ?_, ?_⟩
      · intro es hes hroom
        simp [hes, if_pos hroom]
      · intro es hes hroom
        simp [hes, if_neg hroom]

theorem loggerHandle_spec_witness :
    ((⟨[], 2, false, false⟩ : loggerShared Nat).ctxCancelled = true →
      (⟨(), 0, 0, some [], false⟩ : loggerOwn Unit).closed = true) ∧
    ((⟨[], 2, false, false⟩ : loggerShared Nat).chClosed = true →
      (⟨(), 0, 0, some [], false⟩ : loggerOwn Unit).closed = true) ∧
    ((loggerHandle true (⟨[], 2, false, false⟩ : loggerShared Nat)
        (⟨(), 0, 0, some [], false⟩ : loggerOwn Unit) 5).1
      = handleResult.errClosed ↔
      (⟨(), 0, 0, some [], false⟩ : loggerOwn Unit).closed = true) := by
  refine ⟨by decide, by decide, ?_⟩
  exact (loggerHandle_spec Nat Unit true ⟨[], 2, false, false⟩
    ⟨(), 0, 0, some [], false⟩ 5 (by decide) (by decide)).1

theorem loggerClose_sets_closed (ρ η : Type) (s : loggerShared ρ)
    (o : loggerOwn η) : (loggerClose s o).2.2.closed = true := by
  rw [loggerClose]
  cases hcl : o.closed with
  | true => simpa using hcl
  | false =>
    rw [if_neg (by decide)]
    rcases herr : o.errCh with _ | es
    · simp [collectErrors, herr]
    · cases es with
      | nil => simp [collectErrors, herr]
      | cons e es2 => simp [collectErrors, herr]

/-- C9 counterexample: a concrete sequential trace refuting "both calls
return success".  Build a logger with channel capacity 0, Handle one
record (the record is dropped and a channel-full report lands on the
error side-channel), then call Close twice: the FIRST Close returns the
collected side-channel error, not success; only the second returns nil. -/
theorem loggerClose_success_counterexample :
    (loggerClose
        (loggerHandle true (newAsyncLogger Nat () 0).1
          (newAsyncLogger Nat () 0).2 7).2.1
        (loggerHandle true (newAsyncLogger Nat () 0).1
          (newAsyncLogger Nat () 0).2 7).2.2).1 ≠ none ∧
    (loggerClose
        (loggerClose
          (loggerHandle true (newAsyncLogger Nat () 0).1
            (newAsyncLogger Nat () 0).2 7).2.1
          (loggerHandle true (newAsyncLogger Nat () 0).1
            (newAsyncLogger Nat () 0).2 7).2.2).2.1
        (loggerClose
          (loggerHandle true (newAsyncLogger Nat () 0).1
            (newAsyncLogger Nat () 0).2 7).2.1
          (loggerHandle true (newAsyncLogger Nat () 0).1
            (newAsyncLogger Nat () 0).2 7).2.2).2.2).1 = none := by
  decide

/-- C9 (amended): Close is idempotent in the guarded sense: the second of
two sequential calls always returns success and performs no additional
work (it returns the state unchanged); the FIRST call returns success
exactly when the logger was already closed or the error side-channel is
nil or empty — otherwise it returns the collected side-channel errors. -/
theorem loggerClose_idempotent_amended (ρ η : Type) (s : loggerShared ρ)
    (o : loggerOwn η) :
    loggerClose (loggerClose s o).2.1 (loggerClose s o).2.2
      = (none, (loggerClose s o).2.1, (loggerClose s o).2.2) ∧
    ((loggerClose s o).1 = none ↔
      o.closed = true ∨ o.errCh = none ∨ o.errCh = some []) := by
  constructor
  · rw [loggerClose, if_pos (loggerClose_sets_closed ρ η s o)]
  · cases hcl : o.closed with
    | true =>
      rw [loggerClose, if_pos hcl]
      simp
    | false =>
      rw [loggerClose, if_neg (by simp [hcl])]
      rcases herr : o.errCh with _ | es
      · simp [collectErrors, herr]
      · cases es with
        | nil => simp [collectErrors, herr]
        | cons e es2 => simp [collectErrors, herr]

/-- C10: a handler derived through WithAttrs or WithGroup shares the
channel and context but carries fresh zero counters, a false closed flag
and a nil error channel.  Consequently, after Close on the original
logger, Handle on the derived handler never returns the
handler-already-closed error (whatever the select oracle does), while
Handle on the original does; and a drop recorded through the derived
handler lands on the derived handler's counter while the original's
dropped-count accessor still reports the original's own counter. -/
theorem withAttrs_fresh_state (ρ η : Type) (sel : Bool) (s : loggerShared ρ)
    (o : loggerOwn η) (b b2 : η) (r : ρ)
    (hfull : ¬ s.chContents.length < s.chCap)
    (hccl : s.chClosed = false) (hcc : s.ctxCancelled = false) :
    (loggerWithAttrs o b).dropped = 0 ∧
    (loggerWithAttrs o b).total = 0 ∧
    (loggerWithAttrs o b).closed = false ∧
    (loggerWithAttrs o b).errCh = none ∧
    (loggerWithAttrs o b).baseHandler = b ∧
    (loggerWithGroup o b2).dropped = 0 ∧
    (loggerWithGroup o b2).total = 0 ∧
    (loggerWithGroup o b2).closed = false ∧
    (loggerWithGroup o b2).errCh = none ∧
    (loggerHandle sel (loggerClose s o).2.1 (loggerWithAttrs o b) r).1
      ≠ handleResult.errClosed ∧
    (loggerHandle sel (loggerClose s o).2.1 (loggerClose s o).2.2 r).1
      = handleResult.errClosed ∧
    (loggerHandle sel s (loggerWithAttrs o b) r).2.2.dropped = 1 ∧
    GetDroppedLogsCount o = o.dropped := by
  refine ⟨rfl, rfl, rfl, rfl, rfl, rfl, rfl, rfl, rfl, ?_, ?_, ?_, rfl⟩
  · cases hcl : o.closed with
    | true =>
      have hss : (loggerClose s o).2.1 = s := by
        rw [loggerClose, if_pos hcl]
      rw [hss, loggerHandle, if_neg (by simp [loggerWithAttrs])]
      simp only [hccl, hcc, Bool.false_or, Bool.not_false, Bool.true_or,
        Bool.and_true, Bool.true_and]
      rw [if_neg (by simp [hfull]), if_neg (by simp [hcc])]
      simp
    | false =>
      have hs1 : (loggerClose s o).2.1 =
          { s with chClosed := true, ctxCancelled := true,
                   chContents := [] } := by
        rw [loggerClose, if_neg (by simp [hcl])]
      rw [hs1, loggerHandle, if_neg (by simp [loggerWithAttrs])]
      simp only [Bool.true_or, Bool.not_true, Bool.false_or, Bool.true_and]
      cases sel with
      | true =>
        rw [if_pos rfl]
        simp
      | false =>
        rw [if_neg (by simp)]
        simp
  · rw [loggerHandle, if_pos (loggerClose_sets_closed ρ η s o)]
  · rw [loggerHandle, if_neg (by simp [loggerWithAttrs])]
    simp only [hccl, hcc, Bool.false_or, Bool.not_false, Bool.true_or,
      Bool.and_true, Bool.true_and]
    rw [if_neg (by simp [hfull]), if_neg (by simp [hcc])]
    rfl

theorem withAttrs_fresh_state_witness :
    (¬ (⟨[9], 1, false, false⟩ : loggerShared Nat).chContents.length
        < (⟨[9], 1, false, false⟩ : loggerShared Nat).chCap) ∧
    (⟨[9], 1, false, false⟩ : loggerShared Nat).chClosed = false ∧
    (⟨[9], 1, false, false⟩ : loggerShared Nat).ctxCancelled = false ∧
    (loggerHandle true
        (loggerClose (⟨[9], 1, false, false⟩ : loggerShared Nat)
          (⟨(), 3, 5, some [], false⟩ : loggerOwn Unit)).2.1
        (loggerWithAttrs (⟨(), 3, 5, some [], false⟩ : loggerOwn Unit) ())
        4).1 ≠ handleResult.errClosed ∧
    (loggerHandle true
        (loggerClose (⟨[9], 1, false, false⟩ : loggerShared Nat)
          (⟨(), 3, 5, some [], false⟩ : loggerOwn Unit)).2.1
        (loggerClose (⟨[9], 1, false, false⟩ : loggerShared Nat)
          (⟨(), 3, 5, some [], false⟩ : loggerOwn Unit)).2.2
        4).1 = handleResult.errClosed ∧
    (loggerHandle true (⟨[9], 1, false, false⟩ : loggerShared Nat)
        (loggerWithAttrs (⟨(), 3, 5, some [], false⟩ : loggerOwn Unit) ())
        4).2.2.dropped = 1 := by
  obtain ⟨-, -, -, -, -, -, -, -, -, h10, h11, h12, -⟩ :=
    withAttrs_fresh_state Nat Unit true ⟨[9], 1, false, false⟩
      ⟨(), 3, 5, some [], false⟩ () () 4 (by decide) (by decide) (by decide)
  exact ⟨by decide, by decide, by decide, h10, h11, h12⟩

/-! ## Sharded cache (shardedCache source file)

Go strings are byte sequences; cache keys are modelled as lists of bytes
and cached values (Go slices of strings) as lists of byte lists.  The
spaolacci murmur3 32-bit sum is translated with explicit reduction
modulo 2^32. -/

abbrev GoBytes := List Nat

def u32 : Nat := 4294967296

def rotl32 (x r : Nat) : Nat :=
  ((x <<< r) % u32) ||| (x >>> (32 - r))

def c1m : Nat := 0xcc9e2d51

def c2m : Nat := 0x1b873593

/-- The murmur3 per-chunk mix of a 32-bit word. -/
def mm3MixK (k : Nat) : Nat :=
  (rotl32 ((k * c1m) % u32) 15 * c2m) % u32

/-- The murmur3 state update for one full 4-byte block. -/
def mm3MixH (h k : Nat) : Nat :=
  (rotl32 (h ^^^ mm3MixK k) 13 * 5 + 0xe6546b64) % u32

/-- Body of murmur3 Sum32: consume full little-endian 4-byte blocks, then
xor in the mixed 1-3 byte tail. -/
def mm3Body (h : Nat) : List Nat → Nat
  | b0 :: b1 :: b2 :: b3 :: rest =>
    mm3Body (mm3MixH h (b0 + b1 * 256 + b2 * 65536 + b3 * 16777216)) rest
  | [b0, b1, b2] => h ^^^ mm3MixK (b0 + b1 * 256 + b2 * 65536)
  | [b0, b1] => h ^^^ mm3MixK (b0 + b1 * 256)
  | [b0] => h ^^^ mm3MixK b0
  | [] => h

/-- The murmur3 avalanche finaliser. -/
def fmix32 (h : Nat) : Nat :=
  let h1 := (h ^^^ (h >>> 16)) % u32
  let h2 := (h1 * 0x85ebca6b) % u32
  let h3 := (h2 ^^^ (h2 >>> 13)) % u32
  let h4 := (h3 * 0xc2b2ae35) % u32
  h4 ^^^ (h4 >>> 16)

/-- Embeds murmur3.Sum32 with seed zero. -/
def murmur3Sum32 (data : List Nat) : Nat :=
  fmix32 (mm3Body 0 data ^^^ (data.length % u32))

/-- Embeds a hashicorp golang-lru cache: recency-ordered entries (most
recent first) with a fixed capacity. -/
structure lruCache where
  entries : List (GoBytes × List GoBytes)
  cap : Nat

/-- Embeds lru.Cache.Get: on a hit the entry moves to the front. -/
def lruCache.get (c : lruCache) (k : GoBytes) :
    Option (List GoBytes) × lruCache :=
  match c.entries.find? (fun p => p.1 == k) with
  | some pv =>
    (some pv.2, ⟨(k, pv.2) :: c.entries.filter (fun p => !(p.1 == k)), c.cap⟩)
  | none => (none, c)

/-- Embeds lru.Cache.Add: insert or refresh at the front, evicting the
oldest entry when over capacity. -/
def lruCache.add (c : lruCache) (k : GoBytes) (v : List GoBytes) : lruCache :=
  ⟨((k, v) :: c.entries.filter (fun p => !(p.1 == k))).take c.cap, c.cap⟩

/-- Embeds lru.Cache.Remove. -/
def lruCache.remove (c : lruCache) (k : GoBytes) : lruCache :=
  ⟨c.entries.filter (fun p => !(p.1 == k)), c.cap⟩

/-- Embeds lru.Cache.Purge. -/
def lruCache.purge (c : lruCache) : lruCache := ⟨[], c.cap⟩

/-- Embeds the Go shard struct: plain map plus hit/miss counters. -/
structure shardState where
  m : GoBytes → Option (List GoBytes)
  hits : Nat
  misses : Nat

def emptyShard : shardState := ⟨fun _ => none, 0, 0⟩

/-- Embeds the Go shardedCache struct. -/
structure shardedCache where
  shards : List shardState
  shardCount : Nat
  lruCaches : List lruCache

def defaultLRUCacheSize : Nat := 1024

/-- Embeds newShardedCache: shard count clamped to the range one to 64
from the CPU count, one plain map and one LRU cache per shard. -/
def newShardedCache (numCPU : Nat) : shardedCache :=
  let numShards := if numCPU < 1 then 1 else if numCPU > 64 then 64 else numCPU
  ⟨List.replicate numShards emptyShard, numShards,
   List.replicate numShards ⟨[], defaultLRUCacheSize⟩⟩

/-- Embeds shardedCache.hash: murmur3 of the key modulo the shard count. -/
def shardedCache.hash (c : shardedCache) (key : GoBytes) : Nat :=
  murmur3Sum32 key % c.shardCount

/-- Embeds shardedCache.Get: try the shard's LRU tier first (hit counts
and promotes), fall back to the plain map (hit counts and repopulates the
LRU), else count a miss. -/
def shardedCache.Get (c : shardedCache) (key : GoBytes) :
    Option (List GoBytes) × shardedCache :=
  let i := c.hash key
  let sh := c.shards.getD i emptyShard
  let lc := c.lruCaches.getD i ⟨[], 0⟩
  match lc.get key with
  | (some v, lc2) =>
    (some v,
     { c with lruCaches := c.lruCaches.set i lc2,
              shards := c.shards.set i { sh with hits := sh.hits + 1 } })
  | (none, _) =>
    match sh.m key with
    | some v =>
      (some v,
       { c with lruCaches := c.lruCaches.set i (lc.add key v),
                shards := c.shards.set i { sh with hits := sh.hits + 1 } })
    | none =>
      (none,
       { c with shards := c.shards.set i { sh with misses := sh.misses + 1 } })

/-- Embeds shardedCache.Set: update the plain map and the LRU tier. -/
def shardedCache.Set (c : shardedCache) (key : GoBytes)
    (value : List GoBytes) : shardedCache :=
  let i := c.hash key
  let sh := c.shards.getD i emptyShard
  let lc := c.lruCaches.getD i ⟨[], 0⟩
  { c with
      shards := c.shards.set i
        { sh with m := fun k2 => if k2 = key then some value else sh.m k2 },
      lruCaches := c.lruCaches.set i (lc.add key value) }

/-- Embeds shardedCache.Delete: remove from both tiers, always nil
error. -/
def shardedCache.Delete (c : shardedCache) (key : GoBytes) :
    Option Unit × shardedCache :=
  let i := c.hash key
  let sh := c.shards.getD i emptyShard
  let lc := c.lruCaches.getD i ⟨[], 0⟩
  (none,
   { c with
      shards := c.shards.set i
        { sh with m := fun k2 => if k2 = key then none else sh.m k2 },
      lruCaches := c.lruCaches.set i (lc.remove key) })

/-- Body of the Clear loop for one shard index: fresh plain map, zero
counters, purged LRU. -/
def clearStep (acc : shardedCache) (i : Nat) : shardedCache :=
  { acc with
      shards := acc.shards.set i emptyShard,
      lruCaches := acc.lruCaches.set i
        ((acc.lruCaches.getD i ⟨[], 0⟩).purge) }

/-- Embeds shardedCache.Clear: loop over the shard indices, resetting the
plain map and counters and purging the LRU. -/
def shardedCache.Clear (c : shardedCache) : shardedCache :=
  (List.range c.shardCount).foldl clearStep c

/-- C8: the selected shard index is the murmur3 sum modulo the shard
count (hence deterministic in the key); for every CPU count the
constructed cache has a shard count clamped between one and 64, fixed in
the structure, and the index is strictly below it, so Get, Set and
Delete always address a valid slot of the shard and LRU slices. -/
theorem cache_hash_valid (numCPU : Nat) (key : GoBytes) :
    (newShardedCache numCPU).hash key
      = murmur3Sum32 key % (newShardedCache numCPU).shardCount ∧
    1 ≤ (newShardedCache numCPU).shardCount ∧
    (newShardedCache numCPU).shardCount ≤ 64 ∧
    (newShardedCache numCPU).hash key < (newShardedCache numCPU).shardCount ∧
    (newShardedCache numCPU).shards.length
      = (newShardedCache numCPU).shardCount ∧
    (newShardedCache numCPU).lruCaches.length
      = (newShardedCache numCPU).shardCount := by
  have hcount : (newShardedCache numCPU).shardCount
      = (if numCPU < 1 then 1 else if numCPU > 64 then 64 else numCPU) := rfl
  have hpos : 1 ≤ (newShardedCache numCPU).shardCount := by
    rw [hcount]
    by_cases h1 : numCPU < 1
    · rw [if_pos h1]
    · rw [if_neg h1]
      by_cases h2 : numCPU > 64
      · rw [if_pos h2]
        omega
      · rw [if_neg h2]
        omega
  refine ⟨rfl, hpos, ?_, ?_, ?_, ?_⟩
  · rw [hcount]
    by_cases h1 : numCPU < 1
    · rw [if_pos h1]
      omega
    · rw [if_neg h1]
      by_cases h2 : numCPU > 64
      · rw [if_pos h2]
      · rw [if_neg h2]
        omega
  · exact Nat.mod_lt _ (by omega)
  · simp [newShardedCache]
  · simp [newShardedCache]

theorem getD_set_self {β : Type} (l : List β) (i : Nat) (x d : β)
    (h : i < l.length) : (l.set i x).getD i d = x := by
  induction l generalizing i with
  | nil => simp at h
  | cons a t ih =>
    cases i with
    | zero => rfl
    | succ n => exact ih n (by simpa using h)

theorem getD_set_ne {β : Type} (l : List β) (i j : Nat) (x d : β)
    (h : i ≠ j) : (l.set i x).getD j d = l.getD j d := by
  induction l generalizing i j with
  | nil => rfl
  | cons a t ih =>
    cases i with
    | zero =>
      cases j with
      | zero => exact absurd rfl h
      | succ n => rfl
    | succ n =>
      cases j with
      | zero => rfl
      | succ p => exact ih n p (by omega)

theorem getD_out_of_range {β : Type} (l : List β) (i : Nat) (d : β)
    (h : l.length ≤ i) : l.getD i d = d := by
  rw [List.getD_eq_getElem?_getD, List.getElem?_eq_none h]
  rfl

theorem shardedCache.get_fst (c2 : shardedCache) (k : GoBytes) :
    (c2.Get k).1 =
      match ((c2.lruCaches.getD (c2.hash k) ⟨[], 0⟩).get k).1 with
      | some v => some v
      | none => (c2.shards.getD (c2.hash k) emptyShard).m k := by
  simp only [shardedCache.Get]
  rcases hg : (c2.lruCaches.getD (c2.hash k) ⟨[], 0⟩).get k with ⟨ov, lc2⟩
  cases ov with
  | some v => rfl
  | none =>
    rcases hm : (c2.shards.getD (c2.hash k) emptyShard).m k with _ | v
    · rfl
    · rfl

/-- C5: on any well-formed cache state, Set(k, v) followed by Get(k)
returns the value v; Delete(k) followed by Get(k) reports not found; and
Delete always returns a nil error. -/
theorem cache_set_get_delete (c : shardedCache) (k : GoBytes)
    (v : List GoBytes)
    (hs : c.shards.length = c.shardCount)
    (hl : c.lruCaches.length = c.shardCount)
    (hc : 0 < c.shardCount) :
    ((c.Set k v).Get k).1 = some v ∧
    ((c.Delete k).2.Get k).1 = none ∧
    (c.Delete k).1 = none := by
  have hi : c.hash k < c.shardCount := Nat.mod_lt _ hc
  refine ⟨?_, ?_, rfl⟩
  · rw [shardedCache.get_fst, show (c.Set k v).hash k = c.hash k from rfl]
    have hlru : (c.Set k v).lruCaches.getD (c.hash k) ⟨[], 0⟩
        = (c.lruCaches.getD (c.hash k) ⟨[], 0⟩).add k v := by
      show (c.lruCaches.set (c.hash k)
          ((c.lruCaches.getD (c.hash k) ⟨[], 0⟩).add k v)).getD
            (c.hash k) ⟨[], 0⟩ = _
      exact getD_set_self _ _ _ _ (by rw [hl]; exact hi)
    have hshard : (c.Set k v).shards.getD (c.hash k) emptyShard
        = { c.shards.getD (c.hash k) emptyShard with
            m := fun k2 => if k2 = k then some v
                 else (c.shards.getD (c.hash k) emptyShard).m k2 } := by
      show (c.shards.set (c.hash k) _).getD (c.hash k) emptyShard = _
      exact getD_set_self _ _ _ _ (by rw [hs]; exact hi)
    rw [hlru, hshard]
    rcases hcap : (c.lruCaches.getD (c.hash k) ⟨[], 0⟩).cap with _ | n
    · have hget : ((c.lruCaches.getD (c.hash k) ⟨[], 0⟩).add k v).get k
          = (none, (c.lruCaches.getD (c.hash k) ⟨[], 0⟩).add k v) := by
        rw [lruCache.add, hcap]
        rw [lruCache.get]
        simp
      rw [hget]
      simp
    · have hget : (((c.lruCaches.getD (c.hash k) ⟨[], 0⟩).add k v).get k).1
          = some v := by
        rw [lruCache.add, hcap]
        rw [lruCache.get]
        rw [List.take_succ_cons, List.find?_cons_of_pos _ (by simp)]
      rw [hget]
  · rw [shardedCache.get_fst, show (c.Delete k).2.hash k = c.hash k from rfl]
    have hlru : (c.Delete k).2.lruCaches.getD (c.hash k) ⟨[], 0⟩
        = (c.lruCaches.getD (c.hash k) ⟨[], 0⟩).remove k := by
      show (c.lruCaches.set (c.hash k)
          ((c.lruCaches.getD (c.hash k) ⟨[], 0⟩).remove k)).getD
            (c.hash k) ⟨[], 0⟩ = _
      exact getD_set_self _ _ _ _ (by rw [hl]; exact hi)
    have hshard : (c.Delete k).2.shards.getD (c.hash k) emptyShard
        = { c.shards.getD (c.hash k) emptyShard with
            m := fun k2 => if k2 = k then none
                 else (c.shards.getD (c.hash k) emptyShard).m k2 } := by
      show (c.shards.set (c.hash k) _).getD (c.hash k) emptyShard = _
      exact getD_set_self _ _ _ _ (by rw [hs]; exact hi)
    rw [hlru, hshard]
    have hget : (((c.lruCaches.getD (c.hash k) ⟨[], 0⟩).remove k).get k).1
        = none := by
      rw [lruCache.get]
      have hfind : (((c.lruCaches.getD (c.hash k) ⟨[], 0⟩).remove k).entries.find?
          (fun p => p.1 == k)) = none := by
        rw [List.find?_eq_none]
        intro p hp
        rw [lruCache.remove] at hp
        have h2 := (List.mem_filter.1 hp).2
        simp only [Bool.not_eq_true', beq_eq_false_iff_ne] at h2
        simp [h2]
      rw [hfind]
    rw [hget]
    simp

theorem cache_set_get_delete_witness :
    (newShardedCache 4).shards.length = (newShardedCache 4).shardCount ∧
    (newShardedCache 4).lruCaches.length = (newShardedCache 4).shardCount ∧
    0 < (newShardedCache 4).shardCount ∧
    (((newShardedCache 4).Set [7] [[1]]).Get [7]).1 = some [[1]] ∧
    (((newShardedCache 4).Delete [7]).2.Get [7]).1 = none ∧
    ((newShardedCache 4).Delete [7]).1 = none := by
  refine ⟨by decide, by decide, by decide, ?_⟩
  exact cache_set_get_delete (newShardedCache 4) [7] [[1]]
    (by decide) (by decide) (by decide)

/-- The two-tier consistency invariant of the sharded cache: every entry
held in a shard's LRU tier is present with an equal value in that shard's
plain map. -/
def cacheConsistent (c : shardedCache) : Prop :=
  ∀ i, i < c.shardCount →
    ∀ k v, (k, v) ∈ (c.lruCaches.getD i ⟨[], 0⟩).entries →
      (c.shards.getD i emptyShard).m k = some v


theorem consistent_update (c : shardedCache) (j : Nat)
    (lcnew : lruCache) (shnew : shardState)
    (hs : c.shards.length = c.shardCount)
    (hl : c.lruCaches.length = c.shardCount)
    (hinv : cacheConsistent c)
    (hj : j < c.shardCount →
      ∀ k2 v2, (k2, v2) ∈ lcnew.entries → shnew.m k2 = some v2) :
    cacheConsistent { c with shards := c.shards.set j shnew,
                             lruCaches := c.lruCaches.set j lcnew } := by
  intro i hi k2 v2 hmem
  have hi' : i < c.shardCount := hi
  dsimp only at hmem ⊢
  by_cases hij : i = j
  · subst hij
    rw [getD_set_self _ _ _ _ (by rw [hl]; exact hi')] at hmem
    rw [getD_set_self _ _ _ _ (by rw [hs]; exact hi')]
    exact hj hi' k2 v2 hmem
  · rw [getD_set_ne _ _ _ _ _ (fun he => hij he.symm)] at hmem
    rw [getD_set_ne _ _ _ _ _ (fun he => hij he.symm)]
    exact hinv i hi' k2 v2 hmem

theorem consistent_update_shards (c : shardedCache) (j : Nat)
    (shnew : shardState)
    (hs : c.shards.length = c.shardCount)
    (hinv : cacheConsistent c)
    (hj : j < c.shardCount →
      ∀ k2 v2, (k2, v2) ∈ (c.lruCaches.getD j ⟨[], 0⟩).entries →
        shnew.m k2 = some v2) :
    cacheConsistent { c with shards := c.shards.set j shnew } := by
  intro i hi k2 v2 hmem
  have hi' : i < c.shardCount := hi
  dsimp only at hmem ⊢
  by_cases hij : i = j
  · subst hij
    rw [getD_set_self _ _ _ _ (by rw [hs]; exact hi')]
    exact hj hi' k2 v2 hmem
  · rw [getD_set_ne _ _ _ _ _ (fun he => hij he.symm)]
    exact hinv i hi' k2 v2 hmem

theorem foldl_clearStep_shardCount (l : List Nat) :
    ∀ acc : shardedCache,
      (l.foldl clearStep acc).shardCount = acc.shardCount := by
  induction l with
  | nil => intro acc; rfl
  | cons a t ih => intro acc; exact ih (clearStep acc a)

theorem foldl_clearStep_entries (n : Nat) :
    ∀ (acc : shardedCache) (i : Nat), i < n →
      (((List.range n).foldl clearStep acc).lruCaches.getD i ⟨[], 0⟩).entries
        = [] := by
  induction n with
  | zero =>
    intro acc i h
    omega
  | succ n ih =>
    intro acc i h
    rw [List.range_succ, List.foldl_append, List.foldl_cons, List.foldl_nil]
    simp only [clearStep]
    by_cases hin : i = n
    · subst hin
      by_cases hlt : i < ((List.range i).foldl clearStep acc).lruCaches.length
      · rw [getD_set_self _ _ _ _ hlt]
        rfl
      · rw [getD_out_of_range _ _ _ (by rw [List.length_set]; omega)]
    · rw [getD_set_ne _ _ _ _ _ (fun he => hin he.symm)]
      exact ih acc i (by omega)

/-- C7: the invariant "every (key, value) entry held in a shard's LRU
tier is present with an equal value in that same shard's plain map" is
preserved by Set, Get, Delete and Clear: the plain map is the source of
truth and LRU eviction only loses entries the plain map still holds. -/
theorem cache_lru_subset_map (c : shardedCache) (k : GoBytes)
    (v : List GoBytes)
    (hs : c.shards.length = c.shardCount)
    (hl : c.lruCaches.length = c.shardCount)
    (hinv : cacheConsistent c) :
    cacheConsistent (c.Set k v) ∧
    cacheConsistent (c.Get k).2 ∧
    cacheConsistent (c.Delete k).2 ∧
    cacheConsistent c.Clear := by
  refine ⟨?_, ?_, ?_, ?_⟩
  · -- Set updates both tiers with the same value
    have h2 : c.Set k v = { c with
        shards := c.shards.set (c.hash k)
          ({ c.shards.getD (c.hash k) emptyShard with
              m := fun k2 => if k2 = k then some v
                   else (c.shards.getD (c.hash k) emptyShard).m k2 }),
        lruCaches := c.lruCaches.set (c.hash k)
          ((c.lruCaches.getD (c.hash k) ⟨[], 0⟩).add k v) } := rfl
    rw [h2]
    refine consistent_update c (c.hash k) _ _ hs hl hinv ?_
    intro hjlt k2 v2 hmem
    simp only [lruCache.add] at hmem
    have hmem2 := List.mem_of_mem_take hmem
    rcases List.mem_cons.1 hmem2 with heq | hmem3
    · injection heq with hk2 hv2
      rw [hk2, hv2]
      show (if k = k then some v
        else (c.shards.getD (c.hash k) emptyShard).m k) = some v
      rw [if_pos rfl]
    · have hmem4 := (List.mem_filter.1 hmem3).1
      have hne := (List.mem_filter.1 hmem3).2
      simp only [Bool.not_eq_true', beq_eq_false_iff_ne, ne_eq] at hne
      show (if k2 = k then some v
        else (c.shards.getD (c.hash k) emptyShard).m k2) = some v2
      rw [if_neg hne]
      exact hinv (c.hash k) hjlt k2 v2 hmem4
  · -- Get
    rcases hf : (c.lruCaches.getD (c.hash k) ⟨[], 0⟩).entries.find?
        (fun p => p.1 == k) with _ | pv
    · have hg : (c.lruCaches.getD (c.hash k) ⟨[], 0⟩).get k
          = (none, c.lruCaches.getD (c.hash k) ⟨[], 0⟩) := by
        rw [lruCache.get, hf]
      rcases hm : (c.shards.getD (c.hash k) emptyShard).m k with _ | v0
      · -- LRU miss and map miss: only the miss counter changes
        have h2 : (c.Get k).2 = { c with
            shards := c.shards.set (c.hash k)
              ({ c.shards.getD (c.hash k) emptyShard with
                  misses := (c.shards.getD (c.hash k) emptyShard).misses + 1 }) } := by
          simp only [shardedCache.Get, hg, hm]
        rw [h2]
        refine consistent_update_shards c (c.hash k) _ hs hinv ?_
        intro hjlt k2 v2 hmem
        exact hinv (c.hash k) hjlt k2 v2 hmem
      · -- LRU miss, map hit: the map's value is promoted into the LRU
        have h2 : (c.Get k).2 = { c with
            shards := c.shards.set (c.hash k)
              ({ c.shards.getD (c.hash k) emptyShard with
                  hits := (c.shards.getD (c.hash k) emptyShard).hits + 1 }),
            lruCaches := c.lruCaches.set (c.hash k)
              ((c.lruCaches.getD (c.hash k) ⟨[], 0⟩).add k v0) } := by
          simp only [shardedCache.Get, hg, hm]
        rw [h2]
        refine consistent_update c (c.hash k) _ _ hs hl hinv ?_
        intro hjlt k2 v2 hmem
        simp only [lruCache.add] at hmem
        have hmem2 := List.mem_of_mem_take hmem
        rcases List.mem_cons.1 hmem2 with heq | hmem3
        · injection heq with hk2 hv2
          rw [hk2, hv2]
          exact hm
        · have hmem4 := (List.mem_filter.1 hmem3).1
          exact hinv (c.hash k) hjlt k2 v2 hmem4
    · -- LRU hit: the entry moves to the front, the map is untouched
      have hpvk : pv.1 = k := by
        have h3 := List.find?_some hf
        simpa using h3
      have hpvmem := List.mem_of_find?_eq_some hf
      have hg : (c.lruCaches.getD (c.hash k) ⟨[], 0⟩).get k
          = (some pv.2,
             ⟨(k, pv.2) :: (c.lruCaches.getD (c.hash k) ⟨[], 0⟩).entries.filter
                (fun p => !(p.1 == k)),
              (c.lruCaches.getD (c.hash k) ⟨[], 0⟩).cap⟩) := by
        rw [lruCache.get, hf]
      have h2 : (c.Get k).2 = { c with
          shards := c.shards.set (c.hash k)
            ({ c.shards.getD (c.hash k) emptyShard with
                hits := (c.shards.getD (c.hash k) emptyShard).hits + 1 }),
          lruCaches := c.lruCaches.set (c.hash k)
            (⟨(k, pv.2) :: (c.lruCaches.getD (c.hash k) ⟨[], 0⟩).entries.filter
               (fun p => !(p.1 == k)),
             (c.lruCaches.getD (c.hash k) ⟨[], 0⟩).cap⟩) } := by
        simp only [shardedCache.Get, hg]
      rw [h2]
      refine consistent_update c (c.hash k) _ _ hs hl hinv ?_
      intro hjlt k2 v2 hmem
      rcases List.mem_cons.1 hmem with heq | hmem3
      · injection heq with hk2 hv2
        rw [hk2, hv2]
        have h4 := hinv (c.hash k) hjlt pv.1 pv.2 (by simpa using hpvmem)
        rw [hpvk] at h4
        exact h4
      · have hmem4 := (List.mem_filter.1 hmem3).1
        exact hinv (c.hash k) hjlt k2 v2 hmem4
  · -- Delete removes from both tiers
    have h2 : (c.Delete k).2 = { c with
        shards := c.shards.set (c.hash k)
          ({ c.shards.getD (c.hash k) emptyShard with
              m := fun k2 => if k2 = k then none
                   else (c.shards.getD (c.hash k) emptyShard).m k2 }),
        lruCaches := c.lruCaches.set (c.hash k)
          ((c.lruCaches.getD (c.hash k) ⟨[], 0⟩).remove k) } := rfl
    rw [h2]
    refine consistent_update c (c.hash k) _ _ hs hl hinv ?_
    intro hjlt k2 v2 hmem
    simp only [lruCache.remove] at hmem
    have hmem4 := (List.mem_filter.1 hmem).1
    have hne := (List.mem_filter.1 hmem).2
    simp only [Bool.not_eq_true', beq_eq_false_iff_ne, ne_eq] at hne
    show (if k2 = k then none
      else (c.shards.getD (c.hash k) emptyShard).m k2) = some v2
    rw [if_neg hne]
    exact hinv (c.hash k) hjlt k2 v2 hmem4
  · -- Clear empties every LRU tier
    intro i hi k2 v2 hmem
    have hsc : c.Clear.shardCount = c.shardCount := by
      rw [shardedCache.Clear]
      exact foldl_clearStep_shardCount _ c
    have hi' : i < c.shardCount := by
      rw [← hsc]
      exact hi
    have hent : (c.Clear.lruCaches.getD i ⟨[], 0⟩).entries = [] := by
      rw [shardedCache.Clear]
      exact foldl_clearStep_entries c.shardCount c i hi'
    rw [hent] at hmem
    exact absurd hmem (List.not_mem_nil _)

theorem cache_lru_subset_map_witness :
    (newShardedCache 2).shards.length = (newShardedCache 2).shardCount ∧
    (newShardedCache 2).lruCaches.length = (newShardedCache 2).shardCount ∧
    cacheConsistent (newShardedCache 2) ∧
    (cacheConsistent ((newShardedCache 2).Set [3] [[4]]) ∧
     cacheConsistent ((newShardedCache 2).Get [3]).2 ∧
     cacheConsistent ((newShardedCache 2).Delete [3]).2 ∧
     cacheConsistent (newShardedCache 2).Clear) := by
  have hinv0 : cacheConsistent (newShardedCache 2) := by
    intro i hi k v hmem
    have h2 : i < 2 := hi
    interval_cases i
    · exact absurd hmem (List.not_mem_nil _)
    · exact absurd hmem (List.not_mem_nil _)
  refine ⟨by decide, by decide, hinv0, ?_⟩
  exact cache_lru_subset_map (newShardedCache 2) [3] [[4]]
    (by decide) (by decide) hinv0


/-! ## Metrics snapshot (src/metrics.go dbMetrics) -/

abbrev goDuration := Int

/-- Embeds the dbMetrics struct of src/metrics.go; the sync.Map of
per-operation duration slices is modelled as an association list. -/
structure dbMetricsState where
  queryDurations : List (String × List goDuration)
  affectedRows : Int
  totalQueries : Int
  slowQueries : Int
  errors : Int

/-- Embeds newDBMetrics (counters zero, empty map). -/
def newDBMetrics : dbMetricsState := ⟨[], 0, 0, 0, 0⟩

/-- Embeds sync.Map.Load. -/
def syncMapLoad (m : List (String × List goDuration)) (k : String) :
    Option (List goDuration) :=
  (m.find? (fun p => p.1 == k)).map (fun p => p.2)

/-- Embeds sync.Map.Store: replace the binding or append a new one. -/
def syncMapStore (m : List (String × List goDuration)) (k : String)
    (v : List goDuration) : List (String × List goDuration) :=
  if (m.find? (fun p => p.1 == k)).isSome
  then m.map (fun p => if p.1 == k then (k, v) else p)
  else m ++ [(k, v)]

/-- Embeds dbMetrics.RecordQueryDuration: empty operation types count as
unknown; append to the key's slice, or create a singleton slice on the
first record for that key. -/
def dbMetricsState.RecordQueryDuration (m : dbMetricsState)
    (queryType : String) (duration : goDuration) : dbMetricsState :=
  let qt := if queryType = "" then "unknown" else queryType
  let m2 := { m with totalQueries := m.totalQueries + 1 }
  match syncMapLoad m2.queryDurations qt with
  | some durs =>
    { m2 with
        queryDurations := syncMapStore m2.queryDurations qt (durs ++ [duration]) }
  | none =>
    { m2 with queryDurations := syncMapStore m2.queryDurations qt [duration] }

/-- One query_stats entry of GetDBMetrics: count, total time and average
time, where the average divides the total by the count with Go int64
truncated division (Int.tdiv). -/
def queryStatsEntry (durs : List goDuration) : Nat × Int × Int :=
  let total := durs.foldl (fun a d => a + d) 0
  (durs.length, total, Int.tdiv total (Int.ofNat durs.length))

/-- Embeds the query_stats portion of dbMetrics.GetDBMetrics. -/
def dbMetricsState.GetDBMetrics (m : dbMetricsState) :
    List (String × (Nat × Int × Int)) :=
  m.queryDurations.map (fun p => (p.1, queryStatsEntry p.2))

/-- Keys hold non-empty duration slices. -/
def durationsNonempty (m : dbMetricsState) : Prop :=
  ∀ p ∈ m.queryDurations, p.2 ≠ []

theorem syncMapStore_nonempty (m : List (String × List goDuration))
    (k : String) (v : List goDuration)
    (hm : ∀ p ∈ m, p.2 ≠ []) (hv : v ≠ []) :
    ∀ p ∈ syncMapStore m k v, p.2 ≠ [] := by
  intro p hp
  rw [syncMapStore] at hp
  by_cases hf : (m.find? (fun p => p.1 == k)).isSome = true
  · rw [if_pos hf] at hp
    obtain ⟨p0, hp0, hfp⟩ := List.mem_map.1 hp
    by_cases hk : (p0.1 == k) = true
    · rw [if_pos hk] at hfp
      rw [← hfp]
      exact hv
    · rw [if_neg hk] at hfp
      rw [← hfp]
      exact hm p0 hp0
  · rw [if_neg hf] at hp
    rcases List.mem_append.1 hp with h1 | h2
    · exact hm p h1
    · rw [List.mem_singleton.1 h2]
      exact hv

theorem record_preserves_nonempty (m : dbMetricsState) (qt : String)
    (d : goDuration) (h : durationsNonempty m) :
    durationsNonempty (m.RecordQueryDuration qt d) := by
  intro p hp
  simp only [dbMetricsState.RecordQueryDuration] at hp
  rcases hload : syncMapLoad m.queryDurations
      (if qt = "" then "unknown" else qt) with _ | durs
  · rw [hload] at hp
    exact syncMapStore_nonempty m.queryDurations _ _ h (by simp) p hp
  · rw [hload] at hp
    exact syncMapStore_nonempty m.queryDurations _ _ h (by simp) p hp

theorem foldRecord_nonempty (ops : List (String × goDuration)) :
    durationsNonempty (ops.foldl
      (fun m op => m.RecordQueryDuration op.1 op.2) newDBMetrics) := by
  suffices h : ∀ m : dbMetricsState, durationsNonempty m →
      durationsNonempty (ops.foldl
        (fun m op => m.RecordQueryDuration op.1 op.2) m) by
    refine h newDBMetrics ?_
    intro p hp
    exact absurd hp (List.not_mem_nil p)
  induction ops with
  | nil => intro m hm; exact hm
  | cons op t ih =>
    intro m hm
    exact ih _ (record_preserves_nonempty m op.1 op.2 hm)

/-- C6: for a metrics state reached from a fresh one by any sequence of
RecordQueryDuration calls, every entry of the snapshot's query_stats map
has count at least one (keys are only created on first record, so the
slice is never empty and the average's division is never by zero) and
its reported average equals the truncated division of total time by
count. -/
theorem metrics_average_well_defined (ops : List (String × goDuration)) :
    ∀ e ∈ ((ops.foldl (fun m op => m.RecordQueryDuration op.1 op.2)
        newDBMetrics).GetDBMetrics),
      1 ≤ e.2.1 ∧ e.2.2.2 = Int.tdiv e.2.2.1 (Int.ofNat e.2.1) := by
  intro e he
  obtain ⟨p, hp, hpe⟩ := List.mem_map.1 he
  have hne := foldRecord_nonempty ops p hp
  constructor
  · rw [← hpe]
    show 1 ≤ p.2.length
    cases hq : p.2 with
    | nil => exact absurd hq hne
    | cons a t => simp
  · rw [← hpe]
    rfl

theorem metrics_average_well_defined_witness :
    ("a", ((1 : Nat), (5 : Int), (5 : Int))) ∈
      (([("a", (5 : Int))].foldl
        (fun m op => m.RecordQueryDuration op.1 op.2)
        newDBMetrics).GetDBMetrics) ∧
    (1 ≤ (1 : Nat) ∧ (5 : Int) = Int.tdiv (5 : Int) (Int.ofNat 1)) := by
  have hm : ("a", ((1 : Nat), (5 : Int), (5 : Int))) ∈
      (([("a", (5 : Int))].foldl
        (fun m op => m.RecordQueryDuration op.1 op.2)
        newDBMetrics).GetDBMetrics) := by decide
  exact ⟨hm, metrics_average_well_defined [("a", (5 : Int))]
    ("a", ((1 : Nat), (5 : Int), (5 : Int))) hm⟩

end XLORM
